import Mathlib

/-!
Verification of the lock and metadata store of the lfs-test-server
repository (`meta_store.go`).  The boltdb-backed `MetaStore` is embedded
shallowly:

* the `users`, `objects` and `lockPaths` buckets are partial maps from
  their (string) keys to decoded values — gob encoding is modelled by
  storing the decoded record itself, which is adequate because the code
  only relies on round-trip fidelity of the encoding;
* the `locks` bucket is an association list from the numeric lock id to
  the decoded `MetaLock`, kept sorted in ascending id order.  BoltDB
  stores the key as the 8-byte big-endian encoding `itob id` and orders
  keys lexicographically; `itob` is embedded separately and proved to be
  a strict order embedding, which justifies keeping this bucket sorted
  by the numeric id;
* bolt's per-bucket `NextSequence` is a wrapping `uint64` counter, so the
  sequence update is taken modulo `2^64` (the source's own comment notes
  the wraparound at `2^64`);
* `path.Match` from the Go standard library is a parameter
  `String → String → Except Unit Bool` (`.error ()` models a pattern
  syntax error), and base64 decoding is a parameter
  `String → Option String` (`none` models a decode error).
-/

/-- uint64 modulus: bolt sequence values and lock ids are 64-bit. -/
def w64 : Nat := 18446744073709551616

/-- Record stored for a lock (`MetaLock` in `meta_store.go`). -/
structure MetaLock where
  ID : Nat
  Path : String
  Owner : String
  LockedAt : String
deriving DecidableEq, Repr

/-- Record stored for an object.  Modelled from the spec: the
`ObjectRecord` / `MetaObject` struct itself is declared outside the
given source files; per the spec it is `{oid, size, existing}` with
`existing` a call-scoped flag. -/
structure MetaObject where
  Oid : String
  Size : Int
  Existing : Bool
deriving DecidableEq, Repr

/-- Request parameters used by the object-store operations.  Modelled
from the spec: the `RequestVars` struct is declared outside the given
source files; only the authorization string, the oid and the size are
consumed by the store. -/
structure RequestVars where
  Authorization : String
  Oid : String
  Size : Int
deriving DecidableEq, Repr

/-- Configuration surface consumed by authentication.  Modelled from the
spec: a boolean public mode flag that disables authentication entirely,
and a single static administrator credential. -/
structure AuthConfig where
  isPublic : Bool
  adminUser : String
  adminPass : String
deriving DecidableEq, Repr

/-- Errors surfaced by the store (`errNoBucket`, `errObjectNotFound`,
`errDuplicateObject`, `errUnauthorized` and the auth error). -/
inductive StoreErr where
  | noBucket
  | objectNotFound
  | duplicateObject
  | unauthorized
  | authFailure
deriving DecidableEq, Repr

/-- The state of a `MetaStore`: the four bucket contents plus the
`lockPaths` bucket's sequence counter (the one `LockAdd` draws from). -/
structure MetaStore where
  users : String → Option String
  objects : String → Option MetaObject
  locks : List (Nat × MetaLock)
  lockPaths : String → Option MetaLock
  lockPathsSeq : Nat

/-- A freshly created store: `NewMetaStore` creates the four empty
buckets; a fresh bolt bucket has sequence value 0. -/
def initStore : MetaStore where
  users := fun _ => none
  objects := fun _ => none
  locks := []
  lockPaths := fun _ => none
  lockPathsSeq := 0

/-- Exact-key read from the `locks` bucket (`lb.Get(itob id)`). -/
def lookupByKey : List (Nat × MetaLock) → Nat → Option MetaLock
  | [], _ => none
  | kv :: rest, k => if k = kv.1 then some kv.2 else lookupByKey rest k

/-- Write to the `locks` bucket (`lb.Put(itob id, v)`): bolt inserts the
key in its sorted position, replacing any existing value at that key. -/
def insertSorted (k : Nat) (v : MetaLock) : List (Nat × MetaLock) → List (Nat × MetaLock)
  | [] => [(k, v)]
  | kv :: rest =>
    if k < kv.1 then (k, v) :: kv :: rest
    else if k = kv.1 then (k, v) :: rest
    else kv :: insertSorted k v rest

/-- Delete from the `locks` bucket (`lb.Delete(itob id)`). -/
def eraseByKey : List (Nat × MetaLock) → Nat → List (Nat × MetaLock)
  | [], _ => []
  | kv :: rest, k => if k = kv.1 then rest else kv :: eraseByKey rest k

/-- 8-byte big-endian representation of a uint64 (`itob` in
`meta_store.go`, via `binary.BigEndian.PutUint64`): byte `i` is
`byte(v >> (56 - 8*i))`, i.e. `v / 2^(56-8i) % 256`. -/
def itob (v : Nat) : List Nat :=
  [v / 72057594037927936 % 256, v / 281474976710656 % 256,
   v / 1099511627776 % 256, v / 4294967296 % 256,
   v / 16777216 % 256, v / 65536 % 256,
   v / 256 % 256, v % 256]

/-- Lexicographic (bytewise) strict order on keys, as used by boltdb
(`bytes.Compare`). -/
def bytesLt : List Nat → List Nat → Bool
  | [], [] => false
  | [], _ :: _ => true
  | _ :: _, [] => false
  | x :: xs, y :: ys => decide (x < y) || (decide (x = y) && bytesLt xs ys)

/-- Big-endian base-256 digit list of a number below `256^k` (`k`
digits, most significant first); used to relate `itob` to the
lexicographic key order. -/
def beDigits : Nat → Nat → List Nat
  | 0, _ => []
  | k + 1, x => (x / 256 ^ k) :: beDigits k (x % 256 ^ k)

/-- Result of `LockAdd`: the Go function returns a lock pointer and an
error; on success the error is nil, on a duplicate path the error is
`errDuplicateObject` and the returned record is whatever is in the local
`existingMeta` variable. -/
inductive LockAddResult where
  | ok (lock : MetaLock)
  | dup (lock : MetaLock)
deriving DecidableEq, Repr

/-- `LockAdd` from `meta_store.go`.  The duplicate branch returns the
zero-valued `MetaLock` because the decode of the existing record is
commented out in the source (`existingMeta` keeps its zero value).  On
success it draws `pb.NextSequence()` — a wrapping uint64 counter on the
`lockPaths` bucket — and writes the record into both buckets. -/
def LockAdd (s : MetaStore) (filepath owner now : String) : LockAddResult × MetaStore :=
  match s.lockPaths filepath with
  | some _ => (.dup ⟨0, "", "", ""⟩, s)
  | none =>
    let id := (s.lockPathsSeq + 1) % w64
    let meta : MetaLock := ⟨id, filepath, owner, now⟩
    (.ok meta,
      { s with
        lockPathsSeq := id
        locks := insertSorted id meta s.locks
        lockPaths := fun p => if p = filepath then some meta else s.lockPaths p })

/-- `LockDelete` from `meta_store.go`: look up by id (`errObjectNotFound`
if absent), check ownership unless forced (`errUnauthorized`), then
delete from both buckets and return the deleted record. -/
def LockDelete (s : MetaStore) (id : Nat) (owner : String) (force : Bool) :
    Except StoreErr MetaLock × MetaStore :=
  match lookupByKey s.locks id with
  | none => (.error .objectNotFound, s)
  | some meta =>
    if !force && owner != meta.Owner then
      (.error .unauthorized, s)
    else
      (.ok meta,
        { s with
          locks := eraseByKey s.locks id
          lockPaths := fun p => if p = meta.Path then none else s.lockPaths p })

/-- Clamp of the `limit` argument performed at the top of `LockList`. -/
def clampLimit (limit : Int) : Nat :=
  if limit < 1 then 1 else if limit > 100 then 100 else limit.toNat

/-- The per-entry filter of `LockList`: an entry is kept when the
pattern is empty, or when `path.Match` succeeds and reports a match;
both a pattern syntax error and a non-match fall to `continue`. -/
def acceptedBy (pmatch : String → String → Except Unit Bool) (matchpath : String)
    (l : MetaLock) : Bool :=
  matchpath == "" ||
    (match pmatch matchpath l.Path with
     | .ok true => true
     | _ => false)

/-- The cursor seek of `LockList` (`c.Seek(itob cursor)` followed by
`c.Next()` iteration): the entries of the `locks` bucket from the first
key `≥ cursor` onwards, in bucket order. -/
def seekLocks (s : MetaStore) (cursor : Nat) : List MetaLock :=
  (s.locks.dropWhile (fun kv => kv.1 < cursor)).map (fun kv => kv.2)

/-- The iteration loop of `LockList` over the entries produced by the
seek: the loop runs while `limit > 0 && k != nil`, decrementing `limit`
only on accepted entries; `pending` is true after the loop exactly when
`k != nil`. -/
def lockListRun (pmatch : String → String → Except Unit Bool) (matchpath : String) :
    Nat → List MetaLock → List MetaLock × Bool
  | _, [] => ([], false)
  | 0, _ :: _ => ([], true)
  | lim + 1, e :: rest =>
    if acceptedBy pmatch matchpath e then
      let r := lockListRun pmatch matchpath lim rest
      (e :: r.1, r.2)
    else
      lockListRun pmatch matchpath (lim + 1) rest

/-- `LockList` from `meta_store.go`: clamp the limit to `[1,100]`,
iterate from the cursor, and when entries are pending advance the
returned cursor to the last returned lock's id plus one (a uint64
increment).  Decode errors cannot occur in the embedding, so the
error channel is omitted. -/
def LockList (s : MetaStore) (pmatch : String → String → Except Unit Bool)
    (matchpath : String) (cursor : Nat) (limit : Int) :
    List MetaLock × Nat × Bool :=
  let r := lockListRun pmatch matchpath (clampLimit limit) (seekLocks s cursor)
  let cursorOut :=
    if r.2 then
      match r.1.getLast? with
      | some l => (l.ID + 1) % w64
      | none => cursor
    else cursor
  (r.1, cursorOut, r.2)

/-- `AddUser` from `meta_store.go`: upsert into the `users` bucket. -/
def AddUser (s : MetaStore) (user pass : String) : MetaStore :=
  { s with users := fun u => if u = user then some pass else s.users u }

/-- `DeleteUser` from `meta_store.go`. -/
def DeleteUser (s : MetaStore) (user : String) : MetaStore :=
  { s with users := fun u => if u = user then none else s.users u }

/-- The admin credential check.  Modelled from the spec:
`checkBasicAuth` is declared outside the given source files; per the
spec the decoded pair is accepted immediately when it matches the
configured static administrative credential. -/
def checkBasicAuth (cfg : AuthConfig) (user pass : String) (ok : Bool) : Bool :=
  ok && user == cfg.adminUser && pass == cfg.adminPass

/-- Whether the decoded credential string contains a `:` separator
(`strings.IndexByte(cs, ':') >= 0`). -/
def hasColon (cs : String) : Bool :=
  cs.toList.any (fun c => c == ':')

/-- The user part of the decoded credential, `cs[:i]` for `i` the first
index of `:`. -/
def userOf (cs : String) : String :=
  String.mk (cs.toList.takeWhile (fun c => c != ':'))

/-- The password part of the decoded credential, `cs[i+1:]`. -/
def passOf (cs : String) : String :=
  String.mk ((cs.toList.dropWhile (fun c => c != ':')).tail)

/-- `strings.HasPrefix(authorization, "Basic ")`, rendered on the
character list (the prefix is ASCII, so byte and character prefixes
coincide). -/
def hasBasicScheme (authorization : String) : Bool :=
  "Basic ".toList.isPrefixOf authorization.toList

/-- `strings.TrimPrefix(authorization, "Basic ")` in the branch where
the prefix is known to be present: drop its 6 characters. -/
def afterScheme (authorization : String) : String :=
  String.mk (authorization.toList.drop 6)

/-- `authenticate` from `meta_store.go`.  `b64` stands for
`base64.StdEncoding.DecodeString`.  The final bucket lookup conflates an
absent user with an empty stored secret (`string(bucket.Get(...))`), so
the stored value is read with default `""` and the comparison requires
`value != ""`. -/
def authenticate (cfg : AuthConfig) (b64 : String → Option String)
    (s : MetaStore) (authorization : String) : Bool :=
  if cfg.isPublic then true
  else if authorization == "" then false
  else if !(hasBasicScheme authorization) then false
  else
    match b64 (afterScheme authorization) with
    | none => false
    | some cs =>
      if !(hasColon cs) then false
      else
        let user := userOf cs
        let password := passOf cs
        if checkBasicAuth cfg user password true then true
        else
          let value := (s.users user).getD ""
          if value != "" && value == password then true else false

/-- `UnsafeGet` from `meta_store.go`: object lookup without the
authentication gate; an absent key is `errObjectNotFound`. -/
def UnsafeGet (s : MetaStore) (v : RequestVars) : Except StoreErr MetaObject :=
  match s.objects v.Oid with
  | none => .error .objectNotFound
  | some meta => .ok meta

/-- `Get` from `meta_store.go`: authentication gate, then lookup. -/
def Get (cfg : AuthConfig) (b64 : String → Option String)
    (s : MetaStore) (v : RequestVars) : Except StoreErr MetaObject :=
  if !(authenticate cfg b64 s v.Authorization) then .error .authFailure
  else UnsafeGet s v

/-- `Put` from `meta_store.go`: authentication gate; if `Get` finds the
oid, return the found record with `Existing` set and write nothing;
otherwise persist `{oid, size}` and return it. -/
def Put (cfg : AuthConfig) (b64 : String → Option String)
    (s : MetaStore) (v : RequestVars) : Except StoreErr MetaObject × MetaStore :=
  if !(authenticate cfg b64 s v.Authorization) then (.error .authFailure, s)
  else
    match Get cfg b64 s v with
    | .ok meta => (.ok { meta with Existing := true }, s)
    | .error _ =>
      let meta : MetaObject := ⟨v.Oid, v.Size, false⟩
      (.ok meta,
        { s with objects := fun oid => if oid = v.Oid then some meta else s.objects oid })

/-- Number of locks stored under a given path in the id-indexed
bucket. -/
def pathCount (l : List (Nat × MetaLock)) (p : String) : Nat :=
  l.countP (fun kv => kv.2.Path == p)

/-- Test matcher: the pattern matches exactly the path equal to it. -/
def pmEq : String → String → Except Unit Bool :=
  fun pat q => .ok (pat == q)

/-- Test matcher: every path matches. -/
def pmAll : String → String → Except Unit Bool :=
  fun _ _ => .ok true

/-- Test matcher standing for a malformed glob: `path.Match` reports a
syntax error on every path. -/
def pmBad : String → String → Except Unit Bool :=
  fun _ _ => .error ()

/-- Test base64 decoder: decodes exactly one known string. -/
def b64Table (enc dec : String) : String → Option String :=
  fun x => if x = enc then some dec else none

/-- A single lock-manager operation. -/
inductive LockOp where
  | add (path owner now : String)
  | del (id : Nat) (owner : String) (force : Bool)

/-- State transition of one lock operation (results discarded). -/
def applyLockOp (s : MetaStore) : LockOp → MetaStore
  | .add p o t => (LockAdd s p o t).2
  | .del id o f => (LockDelete s id o f).2

/-- Run a sequence of lock operations. -/
def runOps (s : MetaStore) (ops : List LockOp) : MetaStore :=
  ops.foldl applyLockOp s

/-- The ids handed out by the successful `LockAdd`s of a run, in order. -/
def traceIds : MetaStore → List LockOp → List Nat
  | _, [] => []
  | s, op :: rest =>
    match op with
    | .add p o t =>
      match LockAdd s p o t with
      | (.ok l, s1) => l.ID :: traceIds s1 rest
      | (.dup _, s1) => traceIds s1 rest
    | .del id o f => traceIds (LockDelete s id o f).2 rest

/-- The `locks` bucket is sorted in strictly ascending key order (bolt
keeps keys sorted, and `itob` embeds the numeric order). -/
@[reducible] def locksSorted (s : MetaStore) : Prop :=
  s.locks.Pairwise (fun a b => a.1 < b.1)

/-- Every `locks` entry is keyed by the id stored in its record, and the
ids are 64-bit values. -/
@[reducible] def locksKeyed (s : MetaStore) : Prop :=
  ∀ kv ∈ s.locks, kv.1 = kv.2.ID ∧ kv.1 < w64

/-- A lock list in strictly ascending id order. -/
def idAscending (ls : List MetaLock) : Prop :=
  ls.Pairwise (fun a b => a.ID < b.ID)

/-- A strictly increasing id sequence. -/
def strictAscending (ids : List Nat) : Prop :=
  ids.Pairwise (fun a b => a < b)

/-- Well-formedness of the lock buckets: the id-indexed bucket is
sorted, the sequence is a 64-bit value bounding every issued id, every
id-indexed entry is mirrored in the path-indexed bucket, and every
path-indexed entry is keyed by its path and mirrored in the id-indexed
bucket. -/
def LockWF (s : MetaStore) : Prop :=
  locksSorted s ∧
  s.lockPathsSeq < w64 ∧
  (∀ kv ∈ s.locks,
    kv.1 = kv.2.ID ∧ kv.1 ≤ s.lockPathsSeq ∧ s.lockPaths kv.2.Path = some kv.2) ∧
  (∀ p l, s.lockPaths p = some l → p = l.Path ∧ (l.ID, l) ∈ s.locks)

/-- The `LockList` loop stopped because the accepted-entry budget `lim`
was exhausted while a further entry remained: some proper prefix of the
visited entries already contains `lim` accepted entries and is followed
by at least one more entry. -/
def stoppedAtLimit (pmatch : String → String → Except Unit Bool) (matchpath : String)
    (lim : Nat) (entries : List MetaLock) : Prop :=
  ∃ pre post, entries = pre ++ post ∧ post ≠ [] ∧
    (pre.filter (acceptedBy pmatch matchpath)).length = lim

/-- A supply of pairwise-distinct non-empty lock paths. -/
def pathOf (n : Nat) : String :=
  String.mk (List.replicate (n + 1) 'a')

/-- `k` consecutive `LockAdd` operations on the distinct fresh paths
`pathOf a, pathOf (a+1), …`. -/
def opsFrom (a : Nat) : Nat → List LockOp
  | 0 => []
  | k + 1 => LockOp.add (pathOf a) "o" "t" :: opsFrom (a + 1) k

/-- The ids a wrapping 64-bit sequence hands out, starting after `q`. -/
def idsFrom (q : Nat) : Nat → List Nat
  | 0 => []
  | k + 1 => (q + 1) % w64 :: idsFrom (q + 1) k

example : (LockAdd initStore "/test" "owner" "now").1
    = .ok ⟨1, "/test", "owner", "now"⟩ := by decide

example : (LockAdd ((LockAdd initStore "/test" "owner" "now").2) "/test" "o2" "n2").1
    = .dup ⟨0, "", "", ""⟩ := by decide

example :
    LockList ((LockAdd ((LockAdd initStore "/a" "o" "t").2) "/b" "o" "t").2)
      (fun _ _ => .error ()) "" 0 1
    = ([⟨1, "/a", "o", "t"⟩], 2, true) := by decide

example :
    LockList ((LockAdd ((LockAdd initStore "/a" "o" "t").2) "/b" "o" "t").2)
      (fun _ _ => .error ()) "" 2 1
    = ([⟨2, "/b", "o", "t"⟩], 2, false) := by decide

example : authenticate ⟨true, "", ""⟩ (fun _ => none) initStore "" = true := by decide

example :
    authenticate ⟨false, "admin", "secret"⟩
      (fun x => if x = "dGVzdHVzZXI6dGVzdHBhc3M=" then some "testuser:testpass" else none)
      (AddUser initStore "testuser" "testpass")
      "Basic dGVzdHVzZXI6dGVzdHBhc3M=" = true := by decide

/-! ### Association-list lemmas for the id-indexed bucket -/

theorem lookupByKey_insertSorted_self (k : Nat) (v : MetaLock) (l : List (Nat × MetaLock)) :
    lookupByKey (insertSorted k v l) k = some v := by
  induction l with
  | nil => simp [insertSorted, lookupByKey]
  | cons kv rest ih =>
    by_cases h1 : k < kv.1
    · simp [insertSorted, h1, lookupByKey]
    · by_cases h2 : k = kv.1
      · simp [insertSorted, h1, h2, lookupByKey]
      · simp [insertSorted, h1, h2, lookupByKey, ih]

theorem mem_insertSorted {x : Nat × MetaLock} {k : Nat} {v : MetaLock}
    {l : List (Nat × MetaLock)} (h : x ∈ insertSorted k v l) :
    x = (k, v) ∨ x ∈ l := by
  induction l with
  | nil => simpa [insertSorted] using h
  | cons kv rest ih =>
    by_cases h1 : k < kv.1
    · simp only [insertSorted, if_pos h1, List.mem_cons] at h
      simpa [List.mem_cons] using h
    · by_cases h2 : k = kv.1
      · simp only [insertSorted, if_neg h1, if_pos h2, List.mem_cons] at h
        rcases h with h | h
        · exact Or.inl h
        · exact Or.inr (List.mem_cons_of_mem _ h)
      · simp only [insertSorted, if_neg h1, if_neg h2, List.mem_cons] at h
        rcases h with h | h
        · exact Or.inr (h ▸ List.mem_cons_self _ _)
        · rcases ih h with h' | h'
          · exact Or.inl h'
          · exact Or.inr (List.mem_cons_of_mem _ h')

theorem self_mem_insertSorted (k : Nat) (v : MetaLock) (l : List (Nat × MetaLock)) :
    (k, v) ∈ insertSorted k v l := by
  induction l with
  | nil => simp [insertSorted]
  | cons kv rest ih =>
    by_cases h1 : k < kv.1
    · simp [insertSorted, h1]
    · by_cases h2 : k = kv.1
      · simp [insertSorted, h1, h2]
      · simp only [insertSorted, if_neg h1, if_neg h2, List.mem_cons]
        exact Or.inr ih

theorem mem_insertSorted_of_ne {x : Nat × MetaLock} {k : Nat} {v : MetaLock}
    {l : List (Nat × MetaLock)} (hx : x ∈ l) (hne : x.1 ≠ k) :
    x ∈ insertSorted k v l := by
  induction l with
  | nil => simp at hx
  | cons kv rest ih =>
    rcases List.mem_cons.mp hx with rfl | hx'
    · by_cases h1 : k < x.1
      · simp [insertSorted, h1]
      · by_cases h2 : k = x.1
        · exact absurd h2.symm hne
        · simp [insertSorted, h1, h2]
    · by_cases h1 : k < kv.1
      · simp only [insertSorted, if_pos h1, List.mem_cons]
        exact Or.inr (Or.inr hx')
      · by_cases h2 : k = kv.1
        · simp only [insertSorted, if_neg h1, if_pos h2, List.mem_cons]
          exact Or.inr hx'
        · simp only [insertSorted, if_neg h1, if_neg h2, List.mem_cons]
          exact Or.inr (ih hx')

theorem insertSorted_sorted {k : Nat} {v : MetaLock} {l : List (Nat × MetaLock)}
    (h : l.Pairwise (fun a b => a.1 < b.1)) :
    (insertSorted k v l).Pairwise (fun a b => a.1 < b.1) := by
  induction l with
  | nil => simp [insertSorted]
  | cons kv rest ih =>
    rw [List.pairwise_cons] at h
    obtain ⟨hb, hrest⟩ := h
    by_cases h1 : k < kv.1
    · simp only [insertSorted, if_pos h1]
      rw [List.pairwise_cons]
      refine ⟨?_, List.pairwise_cons.mpr ⟨hb, hrest⟩⟩
      intro y hy
      rcases List.mem_cons.mp hy with rfl | hy'
      · exact h1
      · exact Nat.lt_trans h1 (hb y hy')
    · by_cases h2 : k = kv.1
      · simp only [insertSorted, if_neg h1, if_pos h2]
        rw [List.pairwise_cons]
        exact ⟨fun y hy => h2 ▸ hb y hy, hrest⟩
      · simp only [insertSorted, if_neg h1, if_neg h2]
        rw [List.pairwise_cons]
        refine ⟨?_, ih hrest⟩
        intro y hy
        rcases mem_insertSorted hy with rfl | hy'
        · omega
        · exact hb y hy'

theorem eraseByKey_sublist (l : List (Nat × MetaLock)) (k : Nat) :
    (eraseByKey l k).Sublist l := by
  induction l with
  | nil => simp [eraseByKey]
  | cons kv rest ih =>
    by_cases h : k = kv.1
    · rw [eraseByKey, if_pos h]
      exact List.sublist_cons_self kv rest
    · rw [eraseByKey, if_neg h]
      exact ih.cons₂ kv

theorem mem_eraseByKey_of_ne {x : Nat × MetaLock} {l : List (Nat × MetaLock)} {k : Nat}
    (hx : x ∈ l) (hne : x.1 ≠ k) : x ∈ eraseByKey l k := by
  induction l with
  | nil => simp at hx
  | cons kv rest ih =>
    rcases List.mem_cons.mp hx with rfl | hx'
    · by_cases h : k = x.1
      · exact absurd h.symm hne
      · simp [eraseByKey, h]
    · by_cases h : k = kv.1
      · simpa [eraseByKey, h] using hx'
      · simp only [eraseByKey, if_neg h, List.mem_cons]
        exact Or.inr (ih hx')

theorem keysNodup_of_sorted {l : List (Nat × MetaLock)}
    (h : l.Pairwise (fun a b => a.1 < b.1)) : (l.map Prod.fst).Nodup := by
  rw [List.Nodup, List.pairwise_map]
  exact h.imp Nat.ne_of_lt

theorem lookupByKey_of_mem {l : List (Nat × MetaLock)} {k : Nat} {v : MetaLock}
    (hnd : (l.map Prod.fst).Nodup) (h : (k, v) ∈ l) :
    lookupByKey l k = some v := by
  induction l with
  | nil => simp at h
  | cons kv rest ih =>
    rw [List.map_cons, List.nodup_cons] at hnd
    rcases List.mem_cons.mp h with rfl | h'
    · simp [lookupByKey]
    · have hk : k ≠ kv.1 := by
        intro he
        exact hnd.1 (he ▸ List.mem_map_of_mem Prod.fst h')
      simp only [lookupByKey, if_neg hk]
      exact ih hnd.2 h'

theorem mem_of_lookupByKey {l : List (Nat × MetaLock)} {k : Nat} {v : MetaLock}
    (h : lookupByKey l k = some v) : (k, v) ∈ l := by
  induction l with
  | nil => simp [lookupByKey] at h
  | cons kv rest ih =>
    by_cases hk : k = kv.1
    · simp only [lookupByKey, if_pos hk] at h
      obtain rfl := Option.some.inj h
      simp [List.mem_cons, hk]
    · simp only [lookupByKey, if_neg hk] at h
      exact List.mem_cons_of_mem _ (ih h)

theorem mem_eraseByKey_ne {x : Nat × MetaLock} {l : List (Nat × MetaLock)} {k : Nat}
    (hnd : (l.map Prod.fst).Nodup) (hx : x ∈ eraseByKey l k) : x.1 ≠ k := by
  induction l with
  | nil => simp [eraseByKey] at hx
  | cons kv rest ih =>
    rw [List.map_cons, List.nodup_cons] at hnd
    by_cases h : k = kv.1
    · simp only [eraseByKey, if_pos h] at hx
      intro he
      exact hnd.1 (h ▸ he ▸ List.mem_map_of_mem Prod.fst hx)
    · simp only [eraseByKey, if_neg h, List.mem_cons] at hx
      rcases hx with rfl | hx'
      · exact fun he => h (he ▸ rfl)
      · exact ih hnd.2 hx'

theorem lookupByKey_eraseByKey_ne {l : List (Nat × MetaLock)} {k j : Nat}
    (hne : j ≠ k) : lookupByKey (eraseByKey l k) j = lookupByKey l j := by
  induction l with
  | nil => simp [eraseByKey]
  | cons kv rest ih =>
    by_cases h : k = kv.1
    · simp only [eraseByKey, if_pos h, lookupByKey]
      rw [if_neg (h ▸ hne)]
    · by_cases hj : j = kv.1
      · simp [eraseByKey, if_neg h, lookupByKey, hj]
      · simp [eraseByKey, if_neg h, lookupByKey, hj, ih]

theorem lookupByKey_eraseByKey_self {l : List (Nat × MetaLock)} {k : Nat}
    (hnd : (l.map Prod.fst).Nodup) : lookupByKey (eraseByKey l k) k = none := by
  cases h : lookupByKey (eraseByKey l k) k with
  | none => rfl
  | some v =>
    exact absurd rfl (mem_eraseByKey_ne hnd (mem_of_lookupByKey h))

/-! ### Preservation of the lock-bucket well-formedness invariant -/

theorem initStore_WF : LockWF initStore := by
  refine ⟨?_, ?_, ?_, ?_⟩
  · simp [locksSorted, initStore]
  · norm_num [initStore, w64]
  · intro kv hkv
    simp [initStore] at hkv
  · intro p l h
    simp [initStore] at h

theorem LockAdd_WF {s : MetaStore} (p o t : String)
    (hwf : LockWF s) (hseq : s.lockPathsSeq + 1 < w64) :
    LockWF (LockAdd s p o t).2 ∧
      (LockAdd s p o t).2.lockPathsSeq ≤ s.lockPathsSeq + 1 := by
  obtain ⟨hsort, hs64, hin, hpa⟩ := hwf
  cases hlp : s.lockPaths p with
  | some m =>
    simp only [LockAdd, hlp]
    exact ⟨⟨hsort, hs64, hin, hpa⟩, Nat.le_succ _⟩
  | none =>
    have hid : (s.lockPathsSeq + 1) % w64 = s.lockPathsSeq + 1 := Nat.mod_eq_of_lt hseq
    simp only [LockAdd, hlp, hid]
    refine ⟨⟨?_, ?_, ?_, ?_⟩, ?_⟩
    · exact insertSorted_sorted hsort
    · exact hseq
    · intro kv hkv
      rcases mem_insertSorted hkv with rfl | hkv'
      · refine ⟨rfl, Nat.le_refl _, ?_⟩
        simp
      · obtain ⟨h1, h2, h3⟩ := hin kv hkv'
        have hne : kv.2.Path ≠ p := by
          intro he
          rw [he, hlp] at h3
          exact Option.noConfusion h3
        refine ⟨h1, Nat.le_succ_of_le h2, ?_⟩
        simpa [hne] using h3
    · intro p' l' h'
      by_cases hp : p' = p
      · subst hp
        simp only [if_pos rfl] at h'
        obtain rfl := Option.some.inj h'
        exact ⟨rfl, self_mem_insertSorted _ _ _⟩
      · simp only [if_neg hp] at h'
        obtain ⟨hpath, hmem⟩ := hpa p' l' h'
        refine ⟨hpath, mem_insertSorted_of_ne hmem ?_⟩
        have := (hin _ hmem).2.1
        simp only at this ⊢
        omega
    · exact Nat.le_refl _

theorem LockDelete_WF {s : MetaStore} (id : Nat) (o : String) (f : Bool)
    (hwf : LockWF s) :
    LockWF (LockDelete s id o f).2 ∧
      (LockDelete s id o f).2.lockPathsSeq = s.lockPathsSeq := by
  obtain ⟨hsort, hs64, hin, hpa⟩ := hwf
  have hnd := keysNodup_of_sorted hsort
  cases hlk : lookupByKey s.locks id with
  | none =>
    simp only [LockDelete, hlk]
    exact ⟨⟨hsort, hs64, hin, hpa⟩, by trivial⟩
  | some meta =>
    have hmem : (id, meta) ∈ s.locks := mem_of_lookupByKey hlk
    have hmid : id = meta.ID := (hin _ hmem).1
    have hmpath : s.lockPaths meta.Path = some meta := (hin _ hmem).2.2
    by_cases hchk : (!f && o != meta.Owner) = true
    · simp only [LockDelete, hlk, hchk, if_true]
      exact ⟨⟨hsort, hs64, hin, hpa⟩, by trivial⟩
    · simp only [LockDelete, hlk, hchk, if_false]
      refine ⟨⟨?_, hs64, ?_, ?_⟩, rfl⟩
      · exact hsort.sublist (eraseByKey_sublist _ _)
      · intro kv hkv
        have hkv' : kv ∈ s.locks := (eraseByKey_sublist _ _).subset hkv
        have hne : kv.1 ≠ id := mem_eraseByKey_ne hnd hkv
        obtain ⟨h1, h2, h3⟩ := hin kv hkv'
        have hpne : kv.2.Path ≠ meta.Path := by
          intro he
          rw [he, hmpath] at h3
          obtain rfl := Option.some.inj h3
          exact hne (h1.trans hmid.symm)
        refine ⟨h1, h2, ?_⟩
        simpa [hpne] using h3
      · intro p' l' h'
        by_cases hp : p' = meta.Path
        · simp [hp] at h'
        · simp [hp] at h'
          obtain ⟨hpath, hmem'⟩ := hpa p' l' h'
          refine ⟨hpath, mem_eraseByKey_of_ne hmem' ?_⟩
          intro he
          have hlk' := lookupByKey_of_mem hnd hmem'
          rw [show ((l'.ID, l') : Nat × MetaLock).1 = l'.ID from rfl] at he
          rw [he, hlk] at hlk'
          obtain rfl := Option.some.inj hlk'
          exact hp hpath

theorem runOps_nil (s : MetaStore) : runOps s [] = s := rfl

theorem runOps_cons (s : MetaStore) (op : LockOp) (ops : List LockOp) :
    runOps s (op :: ops) = runOps (applyLockOp s op) ops := rfl

theorem runOps_WF : ∀ (ops : List LockOp) (s : MetaStore), LockWF s →
    s.lockPathsSeq + ops.length < w64 →
    LockWF (runOps s ops) ∧
      (runOps s ops).lockPathsSeq ≤ s.lockPathsSeq + ops.length := by
  intro ops
  induction ops with
  | nil =>
    intro s hwf _
    exact ⟨hwf, by simp [runOps_nil]⟩
  | cons op rest ih =>
    intro s hwf hlen
    rw [runOps_cons]
    rw [List.length_cons] at hlen
    cases op with
    | add p o t =>
      have h1 := LockAdd_WF p o t hwf (by omega)
      have h2 := ih ((LockAdd s p o t).2) h1.1 (by have := h1.2; omega)
      simp only [applyLockOp]
      refine ⟨h2.1, ?_⟩
      have := h2.2
      have := h1.2
      rw [List.length_cons]
      omega
    | del i o f =>
      have h1 := LockDelete_WF i o f hwf
      have h2 := ih ((LockDelete s i o f).2) h1.1 (by rw [h1.2]; omega)
      simp only [applyLockOp]
      refine ⟨h2.1, ?_⟩
      have := h2.2
      rw [h1.2] at this
      rw [List.length_cons]
      omega

/-! ### The big-endian key encoding (claim C9) -/

theorem lt_iff_div_lt_or_mod_lt (a b c : Nat) :
    a < b ↔ a / c < b / c ∨ (a / c = b / c ∧ a % c < b % c) := by
  constructor
  · intro h
    rcases Nat.lt_or_ge (a / c) (b / c) with h1 | h1
    · exact Or.inl h1
    · have h2 : a / c = b / c := Nat.le_antisymm (Nat.div_le_div_right h.le) h1
      refine Or.inr ⟨h2, ?_⟩
      by_contra h3
      push_neg at h3
      have hb := Nat.div_add_mod b c
      have ha := Nat.div_add_mod a c
      have hba : b ≤ a := by
        calc b = c * (b / c) + b % c := hb.symm
        _ ≤ c * (a / c) + a % c := by rw [h2]; exact Nat.add_le_add_left h3 _
        _ = a := ha
      omega
  · rintro (h1 | ⟨h2, h3⟩)
    · exact Nat.lt_of_div_lt_div h1
    · have ha := Nat.div_add_mod a c
      have hb := Nat.div_add_mod b c
      calc a = c * (a / c) + a % c := ha.symm
      _ < c * (b / c) + b % c := by rw [h2]; exact Nat.add_lt_add_left h3 _
      _ = b := hb

theorem beDigits_lt : ∀ (k : Nat) (a b : Nat), a < 256 ^ k → b < 256 ^ k →
    (a < b ↔ bytesLt (beDigits k a) (beDigits k b) = true) := by
  intro k
  induction k with
  | zero =>
    intro a b ha hb
    simp only [beDigits, bytesLt, Bool.false_eq_true, iff_false]
    omega
  | succ k ih =>
    intro a b ha hb
    have hpos : 0 < 256 ^ k := pow_pos (by norm_num) k
    rw [beDigits, beDigits]
    simp only [bytesLt, Bool.or_eq_true, Bool.and_eq_true, decide_eq_true_eq]
    rw [lt_iff_div_lt_or_mod_lt a b (256 ^ k),
      ih (a % 256 ^ k) (b % 256 ^ k) (Nat.mod_lt _ hpos) (Nat.mod_lt _ hpos)]

theorem itob_eq_beDigits (u : Nat) (hu : u < 18446744073709551616) :
    itob u = beDigits 8 u := by
  simp only [itob, beDigits, List.cons.injEq, and_true]
  norm_num
  all_goals omega

/-- Claim C9: for all uint64 ids `u` and `v`, `u < v` if and only if the
8-byte big-endian key encoding of `u` is lexicographically less than
that of `v` — the key encoding is a strict order-embedding from numeric
id order into byte-string order. -/
theorem claim_C9 (u v : Nat)
    (hu : u < 18446744073709551616) (hv : v < 18446744073709551616) :
    u < v ↔ bytesLt (itob u) (itob v) = true := by
  have h8 : (256 : Nat) ^ 8 = 18446744073709551616 := by norm_num
  rw [itob_eq_beDigits u hu, itob_eq_beDigits v hv]
  exact beDigits_lt 8 u v (h8 ▸ hu) (h8 ▸ hv)

/-- Witness for claim C9 at the ids 3 and 5. -/
theorem claim_C9_witness :
    3 < 18446744073709551616 ∧ 5 < 18446744073709551616 ∧
      (3 < 5 ↔ bytesLt (itob 3) (itob 5) = true) :=
  ⟨by norm_num, by norm_num, claim_C9 3 5 (by norm_num) (by norm_num)⟩

/-! ### The `LockList` loop -/

theorem clampLimit_pos (limit : Int) : 0 < clampLimit limit := by
  unfold clampLimit
  split_ifs <;> omega

theorem lockListRun_fst (pm : String → String → Except Unit Bool) (pat : String) :
    ∀ (lim : Nat) (entries : List MetaLock),
      (lockListRun pm pat lim entries).1
        = (entries.filter (acceptedBy pm pat)).take lim := by
  intro lim entries
  induction entries generalizing lim with
  | nil => cases lim <;> simp [lockListRun]
  | cons e rest ih =>
    cases lim with
    | zero => simp [lockListRun]
    | succ n =>
      by_cases h : acceptedBy pm pat e = true
      · simp [lockListRun, h, List.filter_cons, ih]
      · simp [lockListRun, h, List.filter_cons, ih]

theorem lockListRun_snd (pm : String → String → Except Unit Bool) (pat : String) :
    ∀ (lim : Nat) (entries : List MetaLock),
      ((lockListRun pm pat lim entries).2 = true ↔ stoppedAtLimit pm pat lim entries) := by
  intro lim entries
  induction entries generalizing lim with
  | nil =>
    simp only [lockListRun, stoppedAtLimit]
    constructor
    · intro h
      exact absurd h (by simp)
    · rintro ⟨pre, post, heq, hpost, -⟩
      exact absurd (List.append_eq_nil.mp heq.symm).2 hpost
  | cons e rest ih =>
    cases lim with
    | zero =>
      simp only [lockListRun]
      constructor
      · intro _
        exact ⟨[], e :: rest, rfl, by simp, by simp⟩
      · intro _
        trivial
    | succ n =>
      by_cases h : acceptedBy pm pat e = true
      · simp only [lockListRun, if_pos h]
        rw [ih n]
        constructor
        · rintro ⟨pre, post, heq, hpost, hlen⟩
          exact ⟨e :: pre, post, by rw [List.cons_append, heq], hpost,
            by simp [List.filter_cons, h, hlen]⟩
        · rintro ⟨pre, post, heq, hpost, hlen⟩
          cases pre with
          | nil => simp at hlen
          | cons x pre' =>
            rw [List.cons_append] at heq
            obtain ⟨rfl, heq'⟩ := List.cons.inj heq
            simp only [List.filter_cons, if_pos h, List.length_cons] at hlen
            exact ⟨pre', post, heq', hpost, by omega⟩
      · simp only [lockListRun, if_neg h]
        rw [ih (n + 1)]
        constructor
        · rintro ⟨pre, post, heq, hpost, hlen⟩
          exact ⟨e :: pre, post, by rw [List.cons_append, heq], hpost,
            by simp [List.filter_cons, h, hlen]⟩
        · rintro ⟨pre, post, heq, hpost, hlen⟩
          cases pre with
          | nil => simp at hlen
          | cons x pre' =>
            rw [List.cons_append] at heq
            obtain ⟨rfl, heq'⟩ := List.cons.inj heq
            simp only [List.filter_cons, if_neg h] at hlen
            exact ⟨pre', post, heq', hpost, hlen⟩

theorem lockListRun_allRejected (pm : String → String → Except Unit Bool) (pat : String)
    (lim : Nat) (hlim : lim ≠ 0) :
    ∀ entries, (∀ e ∈ entries, acceptedBy pm pat e = false) →
      lockListRun pm pat lim entries = ([], false) := by
  intro entries
  induction entries with
  | nil => intro _; cases lim <;> simp [lockListRun]
  | cons e rest ih =>
    intro hall
    cases lim with
    | zero => exact absurd rfl hlim
    | succ n =>
      have he : ¬(acceptedBy pm pat e = true) := by
        simp [hall e (List.mem_cons_self e rest)]
      simp only [lockListRun, if_neg he]
      exact ih (fun x hx => hall x (List.mem_cons_of_mem e hx))

theorem seekLocks_idAscending {s : MetaStore} (cursor : Nat)
    (hsort : locksSorted s) (hkey : locksKeyed s) :
    idAscending (seekLocks s cursor) := by
  rw [idAscending, seekLocks, List.pairwise_map]
  have hdw : (s.locks.dropWhile fun kv => kv.1 < cursor).Pairwise (fun a b => a.1 < b.1) :=
    hsort.sublist (List.dropWhile_sublist _)
  refine hdw.imp_of_mem ?_
  intro a b ha hb hab
  have ha' := (hkey a ((List.dropWhile_sublist _).subset ha)).1
  have hb' := (hkey b ((List.dropWhile_sublist _).subset hb)).1
  omega

theorem seekLocks_id_lt {s : MetaStore} (cursor : Nat) (hkey : locksKeyed s) :
    ∀ e ∈ seekLocks s cursor, e.ID < w64 := by
  intro e he
  obtain ⟨kv, hkv, rfl⟩ := List.mem_map.mp he
  have := hkey kv ((List.dropWhile_sublist _).subset hkv)
  omega

/-! ### Claims C4, C5 and C10 about `LockList` -/

/-- Claim C4: for every store state, pattern, cursor and limit,
`LockList` returns the first `min(clamp(limit,1,100), available)`
accepted entries obtained by visiting locks in ascending id order
starting from the first id `≥ cursor`; an entry is accepted when the
pattern is empty or the entry's path glob-matches it, and rejected
entries do not count against the limit. -/
theorem claim_C4 (s : MetaStore) (pm : String → String → Except Unit Bool)
    (pat : String) (cursor : Nat) (limit : Int)
    (hsort : locksSorted s) (hkey : locksKeyed s) :
    (LockList s pm pat cursor limit).1
        = ((seekLocks s cursor).filter (acceptedBy pm pat)).take (clampLimit limit)
      ∧ idAscending (LockList s pm pat cursor limit).1 := by
  have h1 : (LockList s pm pat cursor limit).1
      = (lockListRun pm pat (clampLimit limit) (seekLocks s cursor)).1 := rfl
  rw [h1, lockListRun_fst]
  refine ⟨rfl, ?_⟩
  have hasc : idAscending (seekLocks s cursor) := seekLocks_idAscending cursor hsort hkey
  exact hasc.sublist ((List.take_sublist _ _).trans (List.filter_sublist _))

/-- Witness for claim C4: three locks, a pattern matching only the
second path, so the rejected entries are skipped without consuming the
limit. -/
theorem claim_C4_witness :
    locksSorted ((LockAdd ((LockAdd ((LockAdd initStore "/a" "o" "t").2)
        "/b" "o" "t").2) "/c" "o" "t").2) ∧
    locksKeyed ((LockAdd ((LockAdd ((LockAdd initStore "/a" "o" "t").2)
        "/b" "o" "t").2) "/c" "o" "t").2) ∧
    (LockList ((LockAdd ((LockAdd ((LockAdd initStore "/a" "o" "t").2)
        "/b" "o" "t").2) "/c" "o" "t").2)
        pmEq "/b" 0 100).1 = [⟨2, "/b", "o", "t"⟩] :=
  ⟨by decide, by decide,
    ((claim_C4 _ pmEq "/b" 0 100 (by decide) (by decide)).1).trans (by decide)⟩

/-- Claim C5: `hasMore` is true iff the iteration stopped because the
clamped limit of accepted entries was reached while a further entry
existed beyond the last visited position; in that case the returned
cursor is the id of the last returned lock plus one, and otherwise the
supplied cursor is echoed back. -/
theorem claim_C5 (s : MetaStore) (pm : String → String → Except Unit Bool)
    (pat : String) (cursor : Nat) (limit : Int)
    (hsort : locksSorted s) (hkey : locksKeyed s) :
    ((LockList s pm pat cursor limit).2.2 = true ↔
        stoppedAtLimit pm pat (clampLimit limit) (seekLocks s cursor)) ∧
    ((LockList s pm pat cursor limit).2.2 = true →
        ∃ l, (LockList s pm pat cursor limit).1.getLast? = some l ∧
          (LockList s pm pat cursor limit).2.1 = l.ID + 1) ∧
    ((LockList s pm pat cursor limit).2.2 = false →
        (LockList s pm pat cursor limit).2.1 = cursor) := by
  have hfst : (LockList s pm pat cursor limit).1
      = (lockListRun pm pat (clampLimit limit) (seekLocks s cursor)).1 := rfl
  have hsnd : (LockList s pm pat cursor limit).2.2
      = (lockListRun pm pat (clampLimit limit) (seekLocks s cursor)).2 := rfl
  refine ⟨?_, ?_, ?_⟩
  · rw [hsnd]
    exact lockListRun_snd pm pat _ _
  · intro hp
    rw [hsnd] at hp
    obtain ⟨pre, post, heq, hpost, hlen⟩ := (lockListRun_snd pm pat _ _).mp hp
    have hr1 : (lockListRun pm pat (clampLimit limit) (seekLocks s cursor)).1
        = pre.filter (acceptedBy pm pat) := by
      rw [lockListRun_fst, heq, List.filter_append, ← hlen, List.take_left]
    have hlimpos : 0 < clampLimit limit := clampLimit_pos limit
    have hne : pre.filter (acceptedBy pm pat) ≠ [] := by
      intro h0
      rw [h0] at hlen
      simp at hlen
      omega
    obtain ⟨l, hl⟩ : ∃ l, (pre.filter (acceptedBy pm pat)).getLast? = some l := by
      cases hgl : (pre.filter (acceptedBy pm pat)).getLast? with
      | none => exact absurd (List.getLast?_eq_none_iff.mp hgl) hne
      | some l => exact ⟨l, rfl⟩
    have hlmem : l ∈ pre.filter (acceptedBy pm pat) := by
      have h2 := List.getLast?_eq_getLast_of_ne_nil hne
      rw [hl] at h2
      rw [Option.some.inj h2]
      exact List.getLast_mem hne
    have hlpre : l ∈ pre := (List.filter_sublist _).subset hlmem
    obtain ⟨p0, hp0⟩ := List.exists_mem_of_ne_nil post hpost
    have hasc : idAscending (seekLocks s cursor) := seekLocks_idAscending cursor hsort hkey
    rw [idAscending, heq, List.pairwise_append] at hasc
    have hlt : l.ID < p0.ID := hasc.2.2 l hlpre p0 hp0
    have hbound : p0.ID < w64 :=
      seekLocks_id_lt cursor hkey p0 (heq ▸ List.mem_append_right pre hp0)
    have hmod : (l.ID + 1) % w64 = l.ID + 1 := Nat.mod_eq_of_lt (by omega)
    refine ⟨l, ?_, ?_⟩
    · rw [hfst, hr1]
      exact hl
    · show (if (lockListRun pm pat (clampLimit limit) (seekLocks s cursor)).2 = true then
          match (lockListRun pm pat (clampLimit limit) (seekLocks s cursor)).1.getLast? with
          | some l' => (l'.ID + 1) % w64
          | none => cursor
        else cursor) = l.ID + 1
      rw [hp, if_pos rfl, hr1, hl]
      exact hmod
  · intro hp
    rw [hsnd] at hp
    show (if (lockListRun pm pat (clampLimit limit) (seekLocks s cursor)).2 = true then
        match (lockListRun pm pat (clampLimit limit) (seekLocks s cursor)).1.getLast? with
        | some l' => (l'.ID + 1) % w64
        | none => cursor
      else cursor) = cursor
    rw [hp]
    simp

/-- Witness for claim C5: with two locks and a generous limit nothing
is pending, so the supplied cursor 0 is echoed back. -/
theorem claim_C5_witness :
    locksSorted ((LockAdd ((LockAdd initStore "/a" "o" "t").2) "/b" "o" "t").2) ∧
    locksKeyed ((LockAdd ((LockAdd initStore "/a" "o" "t").2) "/b" "o" "t").2) ∧
    (LockList ((LockAdd ((LockAdd initStore "/a" "o" "t").2) "/b" "o" "t").2)
        pmAll "" 0 5).2.2 = false ∧
    (LockList ((LockAdd ((LockAdd initStore "/a" "o" "t").2) "/b" "o" "t").2)
        pmAll "" 0 5).2.1 = 0 :=
  ⟨by decide, by decide, by decide,
    (claim_C5 _ pmAll "" 0 5 (by decide) (by decide)).2.2 (by decide)⟩

/-- Claim C10: when the supplied pattern is a malformed glob — pattern
matching reports a syntax error for every path — `LockList` returns an
empty list with the cursor echoed back and `hasMore = false`; every
visited entry is silently skipped rather than the error surfaced (the
embedding returns no error channel because no other error can occur). -/
theorem claim_C10 (s : MetaStore) (pm : String → String → Except Unit Bool)
    (pat : String) (cursor : Nat) (limit : Int)
    (hpat : pat ≠ "") (herr : ∀ q, pm pat q = .error ()) :
    LockList s pm pat cursor limit = ([], cursor, false) := by
  have hall : ∀ e ∈ seekLocks s cursor, acceptedBy pm pat e = false := by
    intro e _
    simp [acceptedBy, herr e.Path, hpat]
  have hrun := lockListRun_allRejected pm pat (clampLimit limit)
    (clampLimit_pos limit).ne' (seekLocks s cursor) hall
  show ((lockListRun pm pat (clampLimit limit) (seekLocks s cursor)).1,
      if (lockListRun pm pat (clampLimit limit) (seekLocks s cursor)).2 = true then
        match (lockListRun pm pat (clampLimit limit) (seekLocks s cursor)).1.getLast? with
        | some l' => (l'.ID + 1) % w64
        | none => cursor
      else cursor,
      (lockListRun pm pat (clampLimit limit) (seekLocks s cursor)).2) = ([], cursor, false)
  rw [hrun]
  simp

/-- Witness for claim C10: a store with two locks, a non-empty pattern
whose matcher always reports a syntax error. -/
theorem claim_C10_witness :
    (((("[a-b" : String) == "") = false) ∧
      LockList ((LockAdd ((LockAdd initStore "/a" "o" "t").2) "/b" "o" "t").2)
        pmBad "[a-b" 7 50 = ([], 7, false)) :=
  ⟨by decide,
    claim_C10 _ pmBad "[a-b" 7 50 (by decide) (fun _ => rfl)⟩

/-! ### Claim C8 about `LockDelete` -/

/-- Claim C8: `LockDelete` returns `NotFound` when no lock with the id
exists; returns `Unauthorized` when not forced and the owner differs
from the stored owner; otherwise it removes the lock from both the
id-indexed and path-indexed buckets and returns the deleted record; on
every error outcome the store is left unchanged. -/
theorem claim_C8 (s : MetaStore) (id : Nat) (owner : String) (force : Bool)
    (hnd : (s.locks.map Prod.fst).Nodup) :
    (lookupByKey s.locks id = none →
        LockDelete s id owner force = (.error .objectNotFound, s)) ∧
    (∀ l, lookupByKey s.locks id = some l → force = false → owner ≠ l.Owner →
        LockDelete s id owner force = (.error .unauthorized, s)) ∧
    (∀ l, lookupByKey s.locks id = some l → (force = true ∨ owner = l.Owner) →
        (LockDelete s id owner force).1 = .ok l ∧
        lookupByKey (LockDelete s id owner force).2.locks id = none ∧
        (LockDelete s id owner force).2.lockPaths l.Path = none ∧
        (∀ j, j ≠ id → lookupByKey (LockDelete s id owner force).2.locks j
            = lookupByKey s.locks j) ∧
        (∀ q, q ≠ l.Path → (LockDelete s id owner force).2.lockPaths q
            = s.lockPaths q)) := by
  refine ⟨?_, ?_, ?_⟩
  · intro h
    simp only [LockDelete, h]
  · intro l hl hf ho
    have hcond : (!force && owner != l.Owner) = true := by
      rw [hf]
      simp [ho]
    simp only [LockDelete, hl, hcond, if_true]
  · intro l hl hok
    have hcond : ¬((!force && owner != l.Owner) = true) := by
      rcases hok with hf | ho
      · simp [hf]
      · simp [ho]
    simp only [LockDelete, hl, if_neg hcond]
    refine ⟨by trivial, ?_, ?_, ?_, ?_⟩
    · show lookupByKey (eraseByKey s.locks id) id = none
      exact lookupByKey_eraseByKey_self hnd
    · simp
    · intro j hj
      show lookupByKey (eraseByKey s.locks id) j = lookupByKey s.locks j
      exact lookupByKey_eraseByKey_ne hj
    · intro q hq
      show (if q = l.Path then none else s.lockPaths q) = s.lockPaths q
      rw [if_neg hq]

/-- Witness for claim C8: deleting a lock with the wrong owner and no
force flag fails with the authorization error and leaves the store
unchanged. -/
theorem claim_C8_witness :
    lookupByKey ((LockAdd initStore "/w" "alice" "t0").2).locks 1
        = some ⟨1, "/w", "alice", "t0"⟩ ∧
    LockDelete ((LockAdd initStore "/w" "alice" "t0").2) 1 "bob" false
        = (.error .unauthorized, (LockAdd initStore "/w" "alice" "t0").2) :=
  ⟨by decide,
    (claim_C8 ((LockAdd initStore "/w" "alice" "t0").2) 1 "bob" false
        (by decide)).2.1 ⟨1, "/w", "alice", "t0"⟩ (by decide) rfl (by decide)⟩

/-! ### Claim C6 about `Put` and `Get` -/

/-- Claim C6: under an accepted credential, `Put` of an absent oid
persists `{oid, size}` and returns it with `existing = false`, and a
subsequent `Get` with the same credential returns a record with that oid
and size; `Put` of a present oid returns the stored record with
`existing = true` and performs no write. -/
theorem claim_C6 (cfg : AuthConfig) (b64 : String → Option String)
    (s : MetaStore) (v : RequestVars)
    (hauth : authenticate cfg b64 s v.Authorization = true) :
    (s.objects v.Oid = none →
        (Put cfg b64 s v).1 = .ok ⟨v.Oid, v.Size, false⟩ ∧
        Get cfg b64 (Put cfg b64 s v).2 v = .ok ⟨v.Oid, v.Size, false⟩) ∧
    (∀ m, s.objects v.Oid = some m →
        (Put cfg b64 s v).1 = .ok ⟨m.Oid, m.Size, true⟩ ∧
        (Put cfg b64 s v).2 = s) := by
  constructor
  · intro hnone
    have hget : Get cfg b64 s v = .error .objectNotFound := by
      simp [Get, hauth, UnsafeGet, hnone]
    have hput : Put cfg b64 s v = (.ok ⟨v.Oid, v.Size, false⟩,
        { s with objects := fun oid =>
            if oid = v.Oid then some ⟨v.Oid, v.Size, false⟩ else s.objects oid }) := by
      simp [Put, hauth, hget]
    rw [hput]
    refine ⟨rfl, ?_⟩
    have hauth2 : authenticate cfg b64
        { s with objects := fun oid =>
            if oid = v.Oid then some ⟨v.Oid, v.Size, false⟩ else s.objects oid }
        v.Authorization = true := hauth
    simp [Get, hauth2, UnsafeGet]
  · intro m hm
    have hget : Get cfg b64 s v = .ok m := by
      simp [Get, hauth, UnsafeGet, hm]
    constructor
    · simp [Put, hauth, hget]
    · simp [Put, hauth, hget]

/-- Witness for claim C6: a public store accepts any credential; a
fresh oid is stored and read back. -/
theorem claim_C6_witness :
    authenticate ⟨true, "adm", "pw"⟩ (b64Table "" "") initStore "cred" = true ∧
    (Put ⟨true, "adm", "pw"⟩ (b64Table "" "") initStore ⟨"cred", "oid1", 42⟩).1
        = .ok ⟨"oid1", 42, false⟩ ∧
    Get ⟨true, "adm", "pw"⟩ (b64Table "" "")
        (Put ⟨true, "adm", "pw"⟩ (b64Table "" "") initStore ⟨"cred", "oid1", 42⟩).2
        ⟨"cred", "oid1", 42⟩ = .ok ⟨"oid1", 42, false⟩ :=
  ⟨by decide,
    ((claim_C6 ⟨true, "adm", "pw"⟩ (b64Table "" "") initStore ⟨"cred", "oid1", 42⟩
        (by decide)).1 rfl).1,
    ((claim_C6 ⟨true, "adm", "pw"⟩ (b64Table "" "") initStore ⟨"cred", "oid1", 42⟩
        (by decide)).1 rfl).2⟩

/-! ### Claim C7 about `authenticate` (corrected) -/

/-- Counterexample to claim C7 as stated: a user stored with an empty
secret supplies the (equal) empty password over a well-formed non-admin
credential, yet `authenticate` rejects — the code additionally requires
the stored secret to be non-empty (`value != ""`), because an absent
user and an empty stored secret are indistinguishable after
`string(bucket.Get(...))`. -/
theorem claim_C7_counterexample :
    hasBasicScheme "Basic dTo=" = true ∧
    b64Table "dTo=" "u:" (afterScheme "Basic dTo=") = some "u:" ∧
    hasColon "u:" = true ∧
    userOf "u:" = "u" ∧
    passOf "u:" = "" ∧
    checkBasicAuth ⟨false, "admin", "secret"⟩ (userOf "u:") (passOf "u:") true = false ∧
    (AddUser initStore "u" "").users "u" = some "" ∧
    authenticate ⟨false, "admin", "secret"⟩ (b64Table "dTo=" "u:")
      (AddUser initStore "u" "") "Basic dTo=" = false := by
  decide

/-- Claim C7 (amended): `authenticate` is true unconditionally in
public mode; otherwise false on every malformed input (wrong or missing
scheme, undecodable base64, missing colon separator); true when the
decoded pair passes the static admin check; and otherwise true iff the
stored secret for the decoded user is **non-empty** and equals the
supplied password (the non-emptiness condition is what the claim as
stated omits). -/
theorem claim_C7 (cfg : AuthConfig) (b64 : String → Option String)
    (s : MetaStore) (a : String) :
    (cfg.isPublic = true → authenticate cfg b64 s a = true) ∧
    (cfg.isPublic = false → hasBasicScheme a = false →
        authenticate cfg b64 s a = false) ∧
    (cfg.isPublic = false → hasBasicScheme a = true → b64 (afterScheme a) = none →
        authenticate cfg b64 s a = false) ∧
    (∀ cs, cfg.isPublic = false → hasBasicScheme a = true →
        b64 (afterScheme a) = some cs → hasColon cs = false →
        authenticate cfg b64 s a = false) ∧
    (∀ cs, cfg.isPublic = false → hasBasicScheme a = true →
        b64 (afterScheme a) = some cs → hasColon cs = true →
        checkBasicAuth cfg (userOf cs) (passOf cs) true = true →
        authenticate cfg b64 s a = true) ∧
    (∀ cs, cfg.isPublic = false → hasBasicScheme a = true →
        b64 (afterScheme a) = some cs → hasColon cs = true →
        checkBasicAuth cfg (userOf cs) (passOf cs) true = false →
        (authenticate cfg b64 s a = true ↔
          ((s.users (userOf cs)).getD "" ≠ "" ∧
            (s.users (userOf cs)).getD "" = passOf cs))) := by
  refine ⟨?_, ?_, ?_, ?_, ?_, ?_⟩
  · intro hpub
    simp [authenticate, hpub]
  · intro hpub hscheme
    by_cases hempty : a = ""
    · simp [authenticate, hpub, hempty]
    · simp [authenticate, hpub, hempty, hscheme]
  · intro hpub hscheme hdec
    have hempty : ¬(a = "") := by
      intro h
      rw [h] at hscheme
      exact absurd hscheme (by decide)
    simp [authenticate, hpub, hempty, hscheme, hdec]
  · intro cs hpub hscheme hdec hcol
    have hempty : ¬(a = "") := by
      intro h
      rw [h] at hscheme
      exact absurd hscheme (by decide)
    simp [authenticate, hpub, hempty, hscheme, hdec, hcol]
  · intro cs hpub hscheme hdec hcol hadm
    have hempty : ¬(a = "") := by
      intro h
      rw [h] at hscheme
      exact absurd hscheme (by decide)
    simp [authenticate, hpub, hempty, hscheme, hdec, hcol, hadm]
  · intro cs hpub hscheme hdec hcol hadm
    have hempty : ¬(a = "") := by
      intro h
      rw [h] at hscheme
      exact absurd hscheme (by decide)
    simp [authenticate, hpub, hempty, hscheme, hdec, hcol, hadm,
      bne_iff_ne, beq_iff_eq]

/-- Witness for claim C7 (amended): a stored non-empty secret equal to
the supplied password authenticates. -/
theorem claim_C7_witness :
    hasBasicScheme "Basic dXNlcjpwdw==" = true ∧
    b64Table "dXNlcjpwdw==" "user:pw" (afterScheme "Basic dXNlcjpwdw==")
        = some "user:pw" ∧
    hasColon "user:pw" = true ∧
    checkBasicAuth ⟨false, "admin", "secret"⟩ (userOf "user:pw") (passOf "user:pw") true
        = false ∧
    authenticate ⟨false, "admin", "secret"⟩ (b64Table "dXNlcjpwdw==" "user:pw")
        (AddUser initStore "user" "pw") "Basic dXNlcjpwdw==" = true :=
  ⟨by decide, by decide, by decide, by decide,
    ((claim_C7 ⟨false, "admin", "secret"⟩ (b64Table "dXNlcjpwdw==" "user:pw")
        (AddUser initStore "user" "pw") "Basic dXNlcjpwdw==").2.2.2.2.2 "user:pw"
        rfl (by decide) (by decide) (by decide) (by decide)).mpr
      ⟨by decide, by decide⟩⟩

/-! ### Claim C2 about duplicate `LockAdd` (corrected) -/

theorem insertSorted_perm {k : Nat} {v : MetaLock} {l : List (Nat × MetaLock)}
    (hfresh : ∀ kv ∈ l, kv.1 ≠ k) : (insertSorted k v l).Perm ((k, v) :: l) := by
  induction l with
  | nil => simp [insertSorted]
  | cons kv rest ih =>
    by_cases h1 : k < kv.1
    · rw [insertSorted, if_pos h1]
    · have h2 : ¬(k = kv.1) := fun he => (hfresh kv (List.mem_cons_self _ _)) he.symm
      rw [insertSorted, if_neg h1, if_neg h2]
      refine List.Perm.trans ?_ (List.Perm.swap (k, v) kv rest)
      exact List.Perm.cons kv (ih fun x hx => hfresh x (List.mem_cons_of_mem _ hx))

/-- Counterexample to claim C2 as stated: the second `LockAdd` on the
same path does fail with the duplicate error, but it returns the
zero-valued record, not the existing lock — the decode of the existing
record is commented out in the source. -/
theorem claim_C2_counterexample :
    (LockAdd initStore "/f" "alice" "t1").1 = .ok ⟨1, "/f", "alice", "t1"⟩ ∧
    (LockAdd ((LockAdd initStore "/f" "alice" "t1").2) "/f" "bob" "t2").1
        = .dup ⟨0, "", "", ""⟩ ∧
    (⟨0, "", "", ""⟩ : MetaLock) ≠ ⟨1, "/f", "alice", "t1"⟩ := by
  decide

/-- Claim C2 (amended): if `LockAdd(p, o1)` succeeds creating `l1` (and
the id sequence is not about to wrap), a subsequent `LockAdd(p, o2)`
fails with the duplicate error, returns the **zero-valued** lock record
rather than `l1`, leaves the store unchanged, and the store still
contains exactly one lock for `p` (namely `l1`). -/
theorem claim_C2 (s : MetaStore) (p o1 o2 t1 t2 : String) (l1 : MetaLock)
    (hwf : LockWF s) (hseq : s.lockPathsSeq + 1 < w64)
    (h1 : (LockAdd s p o1 t1).1 = .ok l1) :
    LockAdd ((LockAdd s p o1 t1).2) p o2 t2
        = (.dup ⟨0, "", "", ""⟩, (LockAdd s p o1 t1).2) ∧
    ((LockAdd s p o1 t1).2).lockPaths p = some l1 ∧
    pathCount ((LockAdd s p o1 t1).2).locks p = 1 := by
  obtain ⟨hsort, hs64, hin, hpa⟩ := hwf
  cases hlp : s.lockPaths p with
  | some m =>
    have hdup : (LockAdd s p o1 t1).1 = .dup ⟨0, "", "", ""⟩ := by
      simp [LockAdd, hlp]
    rw [hdup] at h1
    exact absurd h1 (by simp)
  | none =>
    have hid : (s.lockPathsSeq + 1) % w64 = s.lockPathsSeq + 1 := Nat.mod_eq_of_lt hseq
    have hfst : (LockAdd s p o1 t1).1 = .ok ⟨s.lockPathsSeq + 1, p, o1, t1⟩ := by
      simp [LockAdd, hlp, hid]
    obtain rfl : l1 = (⟨s.lockPathsSeq + 1, p, o1, t1⟩ : MetaLock) := by
      rw [hfst] at h1
      exact (LockAddResult.ok.inj h1).symm
    have hsnd : (LockAdd s p o1 t1).2
        = { s with
            lockPathsSeq := s.lockPathsSeq + 1
            locks := insertSorted (s.lockPathsSeq + 1)
              ⟨s.lockPathsSeq + 1, p, o1, t1⟩ s.locks
            lockPaths := fun q =>
              if q = p then some ⟨s.lockPathsSeq + 1, p, o1, t1⟩
              else s.lockPaths q } := by
      simp [LockAdd, hlp, hid]
    have hpath : ((LockAdd s p o1 t1).2).lockPaths p
        = some ⟨s.lockPathsSeq + 1, p, o1, t1⟩ := by
      rw [hsnd]
      simp
    refine ⟨?_, hpath, ?_⟩
    · have hgen : ∀ s1 : MetaStore,
          s1.lockPaths p = some ⟨s.lockPathsSeq + 1, p, o1, t1⟩ →
          LockAdd s1 p o2 t2 = (.dup ⟨0, "", "", ""⟩, s1) := by
        intro s1 h
        simp [LockAdd, h]
      exact hgen _ hpath
    · rw [hsnd]
      have hfresh : ∀ kv ∈ s.locks, kv.1 ≠ s.lockPathsSeq + 1 := by
        intro kv hkv
        have := (hin kv hkv).2.1
        omega
      show pathCount (insertSorted (s.lockPathsSeq + 1)
          ⟨s.lockPathsSeq + 1, p, o1, t1⟩ s.locks) p = 1
      rw [pathCount, (insertSorted_perm hfresh).countP_eq, List.countP_cons]
      have hzero : s.locks.countP (fun kv => kv.2.Path == p) = 0 := by
        rw [List.countP_eq_zero]
        intro kv hkv he
        have hp' : kv.2.Path = p := by simpa using he
        have := (hin kv hkv).2.2
        rw [hp', hlp] at this
        exact Option.noConfusion this
      rw [hzero]
      simp

/-- Witness for claim C2 (amended), from the fresh store. -/
theorem claim_C2_witness :
    LockAdd ((LockAdd initStore "/f" "alice" "t1").2) "/f" "bob" "t2"
        = (.dup ⟨0, "", "", ""⟩, (LockAdd initStore "/f" "alice" "t1").2) ∧
    ((LockAdd initStore "/f" "alice" "t1").2).lockPaths "/f"
        = some ⟨1, "/f", "alice", "t1"⟩ ∧
    pathCount ((LockAdd initStore "/f" "alice" "t1").2).locks "/f" = 1 :=
  claim_C2 initStore "/f" "alice" "bob" "t1" "t2" ⟨1, "/f", "alice", "t1"⟩
    initStore_WF (by decide) (by decide)

/-! ### Branch equations for `LockAdd` and `LockDelete` -/

theorem LockAdd_some_eq {s : MetaStore} {p : String} {m : MetaLock} (o t : String)
    (hlp : s.lockPaths p = some m) :
    LockAdd s p o t = (.dup ⟨0, "", "", ""⟩, s) := by
  simp [LockAdd, hlp]

theorem LockAdd_none_eq {s : MetaStore} {p : String} (o t : String)
    (hlp : s.lockPaths p = none) :
    LockAdd s p o t = (.ok ⟨(s.lockPathsSeq + 1) % w64, p, o, t⟩,
      { s with
        lockPathsSeq := (s.lockPathsSeq + 1) % w64
        locks := insertSorted ((s.lockPathsSeq + 1) % w64)
          ⟨(s.lockPathsSeq + 1) % w64, p, o, t⟩ s.locks
        lockPaths := fun q =>
          if q = p then some ⟨(s.lockPathsSeq + 1) % w64, p, o, t⟩
          else s.lockPaths q }) := by
  simp [LockAdd, hlp]

theorem LockDelete_seq (s : MetaStore) (i : Nat) (o : String) (f : Bool) :
    (LockDelete s i o f).2.lockPathsSeq = s.lockPathsSeq := by
  cases hlk : lookupByKey s.locks i with
  | none => simp [LockDelete, hlk]
  | some m =>
    by_cases hc : (!f && o != m.Owner) = true
    · simp [LockDelete, hlk, hc]
    · simp [LockDelete, hlk, hc]

/-! ### Claim C1 (corrected): the dual-bucket invariant -/

/-- Claim C1 (amended): for runs of fewer than `2^64` operations — so
the id sequence cannot wrap — a lock record is in the id-indexed bucket
exactly when the identical payload is in the path-indexed bucket under
its path, and at most one live lock exists per distinct path. -/
theorem claim_C1 (ops : List LockOp) (hlen : ops.length < w64) :
    (∀ id l, (id, l) ∈ (runOps initStore ops).locks ↔
      ((runOps initStore ops).lockPaths l.Path = some l ∧ id = l.ID)) ∧
    (∀ id1 id2 l1 l2, (id1, l1) ∈ (runOps initStore ops).locks →
      (id2, l2) ∈ (runOps initStore ops).locks → l1.Path = l2.Path →
      id1 = id2 ∧ l1 = l2) := by
  have hwf := (runOps_WF ops initStore initStore_WF
    (by show 0 + ops.length < w64; omega)).1
  obtain ⟨hsort, hs64, hin, hpa⟩ := hwf
  constructor
  · intro id l
    constructor
    · intro hmem
      obtain ⟨h1, h2, h3⟩ := hin (id, l) hmem
      exact ⟨h3, h1⟩
    · rintro ⟨hlp, rfl⟩
      exact (hpa l.Path l hlp).2
  · intro id1 id2 l1 l2 hm1 hm2 hpe
    obtain ⟨h11, h12, h13⟩ := hin (id1, l1) hm1
    obtain ⟨h21, h22, h23⟩ := hin (id2, l2) hm2
    rw [hpe] at h13
    rw [h13] at h23
    obtain rfl := Option.some.inj h23
    exact ⟨h11.trans h21.symm, rfl⟩

/-- Witness for claim C1 (amended) on a two-operation run. -/
theorem claim_C1_witness :
    ([LockOp.add "/a" "o" "t", LockOp.add "/b" "o" "t"] : List LockOp).length < w64 ∧
    ((1, (⟨1, "/a", "o", "t"⟩ : MetaLock))
        ∈ (runOps initStore [LockOp.add "/a" "o" "t", LockOp.add "/b" "o" "t"]).locks ↔
      ((runOps initStore [LockOp.add "/a" "o" "t", LockOp.add "/b" "o" "t"]).lockPaths "/a"
          = some ⟨1, "/a", "o", "t"⟩ ∧ 1 = 1)) :=
  ⟨by decide,
    (claim_C1 [LockOp.add "/a" "o" "t", LockOp.add "/b" "o" "t"] (by decide)).1
      1 ⟨1, "/a", "o", "t"⟩⟩

/-! ### Claim C3 (corrected): id monotonicity -/

theorem traceIds_increasing : ∀ (ops : List LockOp) (s : MetaStore),
    s.lockPathsSeq + ops.length < w64 →
    (∀ i ∈ traceIds s ops, s.lockPathsSeq < i) ∧ strictAscending (traceIds s ops) := by
  intro ops
  induction ops with
  | nil =>
    intro s _
    constructor
    · intro i hi
      simp [traceIds] at hi
    · simp [traceIds, strictAscending]
  | cons op rest ih =>
    intro s hlen
    rw [List.length_cons] at hlen
    cases op with
    | del i o f =>
      have htr : traceIds s (LockOp.del i o f :: rest)
          = traceIds (LockDelete s i o f).2 rest := rfl
      have hseq := LockDelete_seq s i o f
      have ih' := ih (LockDelete s i o f).2 (by rw [hseq]; omega)
      rw [htr]
      refine ⟨?_, ih'.2⟩
      intro j hj
      have := ih'.1 j hj
      omega
    | add p o t =>
      cases hlp : s.lockPaths p with
      | some m =>
        have htr : traceIds s (LockOp.add p o t :: rest) = traceIds s rest := by
          simp [traceIds, LockAdd_some_eq o t hlp]
        have ih' := ih s (by omega)
        rw [htr]
        refine ⟨?_, ih'.2⟩
        intro j hj
        exact ih'.1 j hj
      | none =>
        have hid : (s.lockPathsSeq + 1) % w64 = s.lockPathsSeq + 1 :=
          Nat.mod_eq_of_lt (by omega)
        have hadd := LockAdd_none_eq o t hlp
        rw [hid] at hadd
        have htr : traceIds s (LockOp.add p o t :: rest)
            = (s.lockPathsSeq + 1) :: traceIds
                { s with
                  lockPathsSeq := s.lockPathsSeq + 1
                  locks := insertSorted (s.lockPathsSeq + 1)
                    ⟨s.lockPathsSeq + 1, p, o, t⟩ s.locks
                  lockPaths := fun q =>
                    if q = p then some ⟨s.lockPathsSeq + 1, p, o, t⟩
                    else s.lockPaths q } rest := by
          simp [traceIds, hadd]
        have ih' := ih
            { s with
              lockPathsSeq := s.lockPathsSeq + 1
              locks := insertSorted (s.lockPathsSeq + 1)
                ⟨s.lockPathsSeq + 1, p, o, t⟩ s.locks
              lockPaths := fun q =>
                if q = p then some ⟨s.lockPathsSeq + 1, p, o, t⟩
                else s.lockPaths q }
            (by show s.lockPathsSeq + 1 + rest.length < w64; omega)
        rw [htr]
        constructor
        · intro j hj
          rcases List.mem_cons.mp hj with rfl | hj'
          · omega
          · have h2 : s.lockPathsSeq + 1 < j := ih'.1 j hj'
            omega
        · refine List.pairwise_cons.mpr ⟨?_, ih'.2⟩
          intro j hj
          exact ih'.1 j hj

/-- Claim C3 (amended): for runs of fewer than `2^64` operations — so
the wrapping 64-bit sequence cannot roll over — every successfully
created lock receives an id strictly greater than all earlier ids, and
no id is ever assigned twice, even after deletions. -/
theorem claim_C3 (ops : List LockOp) (hlen : ops.length < w64) :
    strictAscending (traceIds initStore ops) ∧ (traceIds initStore ops).Nodup := by
  have h := traceIds_increasing ops initStore (by show 0 + ops.length < w64; omega)
  refine ⟨h.2, ?_⟩
  have hne : (traceIds initStore ops).Pairwise (· ≠ ·) := h.2.imp Nat.ne_of_lt
  exact hne

/-- Witness for claim C3 (amended): ids stay strictly increasing across
an interleaved delete. -/
theorem claim_C3_witness :
    ([LockOp.add "/a" "o" "t", LockOp.del 1 "o" false,
        LockOp.add "/b" "o" "t"] : List LockOp).length < w64 ∧
    strictAscending (traceIds initStore
      [LockOp.add "/a" "o" "t", LockOp.del 1 "o" false, LockOp.add "/b" "o" "t"]) :=
  ⟨by decide,
    (claim_C3 [LockOp.add "/a" "o" "t", LockOp.del 1 "o" false,
      LockOp.add "/b" "o" "t"] (by decide)).1⟩

/-! ### The 2^64 wraparound runs refuting claims C1 and C3 as stated -/

theorem pathOf_inj {m n : Nat} (h : pathOf m = pathOf n) : m = n := by
  have h2 := congrArg (fun s => s.data.length) h
  simp [pathOf] at h2
  omega

theorem opsFrom_length : ∀ (k a : Nat), (opsFrom a k).length = k := by
  intro k
  induction k with
  | zero => intro a; rfl
  | succ k ih =>
    intro a
    simp [opsFrom, ih]

theorem opsFrom_append : ∀ (k a : Nat),
    opsFrom a (k + 1) = opsFrom a k ++ [LockOp.add (pathOf (a + k)) "o" "t"] := by
  intro k
  induction k with
  | zero => intro a; simp [opsFrom]
  | succ k ih =>
    intro a
    have h1 : opsFrom a (k + 1 + 1)
        = LockOp.add (pathOf a) "o" "t" :: opsFrom (a + 1) (k + 1) := rfl
    have h2 : opsFrom a (k + 1)
        = LockOp.add (pathOf a) "o" "t" :: opsFrom (a + 1) k := rfl
    rw [h1, ih (a + 1), h2, List.cons_append]
    have h3 : a + 1 + k = a + (k + 1) := by omega
    rw [h3]

theorem runOps_append (s : MetaStore) (l1 l2 : List LockOp) :
    runOps s (l1 ++ l2) = runOps (runOps s l1) l2 := by
  simp [runOps, List.foldl_append]

theorem idsFrom_congr : ∀ (k q1 q2 : Nat), q1 % w64 = q2 % w64 →
    idsFrom q1 k = idsFrom q2 k := by
  intro k
  induction k with
  | zero => intro q1 q2 _; rfl
  | succ k ih =>
    intro q1 q2 hq
    rw [idsFrom, idsFrom]
    have h1 : (q1 + 1) % w64 = (q2 + 1) % w64 := by
      conv_lhs => rw [← Nat.mod_add_mod]
      conv_rhs => rw [← Nat.mod_add_mod]
      rw [hq]
    rw [h1, ih (q1 + 1) (q2 + 1) h1]

theorem idsFrom_mem : ∀ (k q j : Nat), j < k → (q + j + 1) % w64 ∈ idsFrom q k := by
  intro k
  induction k with
  | zero =>
    intro q j h
    exact absurd h (Nat.not_lt_zero j)
  | succ k ih =>
    intro q j hj
    rw [idsFrom]
    cases j with
    | zero => exact List.mem_cons_self _ _
    | succ j =>
      have hm := ih (q + 1) j (by omega)
      rw [show q + (j + 1) + 1 = q + 1 + j + 1 from by omega]
      exact List.mem_cons_of_mem _ hm

theorem run_opsFrom : ∀ (k a : Nat) (s : MetaStore),
    s.lockPathsSeq < w64 →
    (∀ n, a ≤ n → s.lockPaths (pathOf n) = none) →
    (runOps s (opsFrom a k)).lockPathsSeq = (s.lockPathsSeq + k) % w64 ∧
    (∀ n, a + k ≤ n → (runOps s (opsFrom a k)).lockPaths (pathOf n) = none) ∧
    (∀ q m, s.lockPaths q = some m →
      (runOps s (opsFrom a k)).lockPaths q = some m) ∧
    traceIds s (opsFrom a k) = idsFrom s.lockPathsSeq k := by
  intro k
  induction k with
  | zero =>
    intro a s hs hfresh
    refine ⟨?_, ?_, ?_, rfl⟩
    · show s.lockPathsSeq = (s.lockPathsSeq + 0) % w64
      rw [Nat.add_zero, Nat.mod_eq_of_lt hs]
    · intro n hn
      exact hfresh n (by omega)
    · intro q m hq
      exact hq
  | succ k ih =>
    intro a s hs hfresh
    have hlpa : s.lockPaths (pathOf a) = none := hfresh a (Nat.le_refl a)
    have hadd := LockAdd_none_eq "o" "t" hlpa
    have hS1seq : ((LockAdd s (pathOf a) "o" "t").2).lockPathsSeq
        = (s.lockPathsSeq + 1) % w64 := by
      rw [hadd]
    have hS1lp : ∀ q, ((LockAdd s (pathOf a) "o" "t").2).lockPaths q
        = if q = pathOf a
          then some ⟨(s.lockPathsSeq + 1) % w64, pathOf a, "o", "t"⟩
          else s.lockPaths q := by
      intro q
      rw [hadd]
    have hrun : runOps s (opsFrom a (k + 1))
        = runOps ((LockAdd s (pathOf a) "o" "t").2) (opsFrom (a + 1) k) := by
      show runOps s (LockOp.add (pathOf a) "o" "t" :: opsFrom (a + 1) k) = _
      rw [runOps_cons]
      rfl
    have hS1lt : ((LockAdd s (pathOf a) "o" "t").2).lockPathsSeq < w64 := by
      rw [hS1seq]
      exact Nat.mod_lt _ (by norm_num [w64])
    have hfresh1 : ∀ n, a + 1 ≤ n →
        ((LockAdd s (pathOf a) "o" "t").2).lockPaths (pathOf n) = none := by
      intro n hn
      rw [hS1lp]
      rw [if_neg (fun he => by have := pathOf_inj he; omega)]
      exact hfresh n (by omega)
    obtain ⟨ihseq, ihfresh, ihkeep, ihtrace⟩ :=
      ih (a + 1) ((LockAdd s (pathOf a) "o" "t").2) hS1lt hfresh1
    refine ⟨?_, ?_, ?_, ?_⟩
    · rw [hrun, ihseq, hS1seq, Nat.mod_add_mod,
        show s.lockPathsSeq + 1 + k = s.lockPathsSeq + (k + 1) from by omega]
    · intro n hn
      rw [hrun]
      exact ihfresh n (by omega)
    · intro q m hq
      rw [hrun]
      apply ihkeep
      rw [hS1lp]
      rw [if_neg ?hne]
      · exact hq
      case hne =>
        intro he
        rw [he, hlpa] at hq
        exact Option.noConfusion hq
    · have htr : traceIds s (opsFrom a (k + 1))
          = ((s.lockPathsSeq + 1) % w64)
            :: traceIds ((LockAdd s (pathOf a) "o" "t").2) (opsFrom (a + 1) k) := by
        show traceIds s (LockOp.add (pathOf a) "o" "t" :: opsFrom (a + 1) k) = _
        simp only [traceIds, hadd]
      rw [htr, ihtrace, hS1seq, idsFrom]
      rw [idsFrom_congr k ((s.lockPathsSeq + 1) % w64) (s.lockPathsSeq + 1)
        (Nat.mod_mod_of_dvd _ dvd_rfl)]

theorem runOps_sorted : ∀ (ops : List LockOp) (s : MetaStore),
    locksSorted s → locksSorted (runOps s ops) := by
  intro ops
  induction ops with
  | nil => intro s h; exact h
  | cons op rest ih =>
    intro s h
    rw [runOps_cons]
    apply ih
    cases op with
    | add p o t =>
      show locksSorted (LockAdd s p o t).2
      cases hlp : s.lockPaths p with
      | some m =>
        rw [LockAdd_some_eq o t hlp]
        exact h
      | none =>
        rw [LockAdd_none_eq o t hlp]
        exact insertSorted_sorted h
    | del i o f =>
      show locksSorted (LockDelete s i o f).2
      cases hlk : lookupByKey s.locks i with
      | none =>
        have hde : LockDelete s i o f = (.error .objectNotFound, s) := by
          simp [LockDelete, hlk]
        rw [hde]
        exact h
      | some m =>
        by_cases hc : (!f && o != m.Owner) = true
        · simp only [LockDelete, hlk, hc, if_true]
          exact h
        · simp only [LockDelete, hlk, if_neg hc]
          exact h.sublist (eraseByKey_sublist _ _)


theorem opsFrom_succ (a k : Nat) :
    opsFrom a (k + 1) = LockOp.add (pathOf a) "o" "t" :: opsFrom (a + 1) k := rfl

theorem applyLockOp_add (s : MetaStore) (p o t : String) :
    applyLockOp s (LockOp.add p o t) = (LockAdd s p o t).2 := rfl

/-- Counterexample to claim C3 as stated: over the run of `2^64 + 1`
`LockAdd`s on pairwise-distinct fresh paths, the wrapping 64-bit
sequence hands out the id 1 twice (the source's own comment flags the
wraparound), so the assigned ids are not duplicate-free. -/
theorem claim_C3_counterexample :
    ¬ (traceIds initStore (opsFrom 0 (w64 + 1))).Nodup := by
  have hfresh : ∀ n, 0 ≤ n → initStore.lockPaths (pathOf n) = none := fun _ _ => rfl
  have hs : initStore.lockPathsSeq < w64 := by norm_num [initStore, w64]
  have h := (run_opsFrom (w64 + 1) 0 initStore hs hfresh).2.2.2
  have h0 : initStore.lockPathsSeq = 0 := rfl
  rw [h0] at h
  rw [h, idsFrom, List.nodup_cons]
  rintro ⟨hnotmem, -⟩
  apply hnotmem
  have hm := idsFrom_mem w64 1 (w64 - 1) (by norm_num [w64])
  rw [show 1 + (w64 - 1) + 1 = w64 + 1 from by norm_num [w64]] at hm
  rw [Nat.add_mod_left, Nat.mod_eq_of_lt (by norm_num [w64])] at hm
  rw [show (0 + 1) % w64 = 1 from by norm_num [w64]]
  exact hm

/-- Counterexample to claim C1 as stated: after `2^64 + 1` `LockAdd`s
on distinct fresh paths, the wrapped sequence re-issues id 1 and the
`lb.Put` overwrites the id-indexed entry of the very first lock, while
the path-indexed bucket still holds that first lock's payload — the two
buckets fall out of sync on a (formally) reachable state, refuting the
unconditional invariant. -/
theorem claim_C1_counterexample :
    (runOps initStore (opsFrom 0 (w64 + 1))).lockPaths (pathOf 0)
        = some ⟨1, pathOf 0, "o", "t"⟩ ∧
    (1, (⟨1, pathOf 0, "o", "t"⟩ : MetaLock))
        ∉ (runOps initStore (opsFrom 0 (w64 + 1))).locks := by
  have hS1p : ((LockAdd initStore (pathOf 0) "o" "t").2).lockPaths (pathOf 0)
      = some ⟨1, pathOf 0, "o", "t"⟩ := by decide
  have hS1lt : ((LockAdd initStore (pathOf 0) "o" "t").2).lockPathsSeq < w64 := by
    decide
  have hadd0 := LockAdd_none_eq "o" "t"
    (show initStore.lockPaths (pathOf 0) = none from rfl)
  have hfresh1 : ∀ n, 0 + 1 ≤ n →
      ((LockAdd initStore (pathOf 0) "o" "t").2).lockPaths (pathOf n) = none := by
    intro n hn
    simp only [hadd0]
    rw [if_neg (fun he => by have := pathOf_inj he; omega)]
    rfl
  have hkeep := (run_opsFrom w64 1 ((LockAdd initStore (pathOf 0) "o" "t").2)
    hS1lt hfresh1).2.2.1
  have hpart1 : (runOps initStore (opsFrom 0 (w64 + 1))).lockPaths (pathOf 0)
      = some ⟨1, pathOf 0, "o", "t"⟩ := by
    rw [opsFrom_succ 0 w64, show (0 : Nat) + 1 = 1 from rfl, runOps_cons,
      applyLockOp_add]
    exact hkeep (pathOf 0) _ hS1p
  have hs0 : initStore.lockPathsSeq < w64 := by norm_num [initStore, w64]
  have hfresh0 : ∀ n, 0 ≤ n → initStore.lockPaths (pathOf n) = none := fun _ _ => rfl
  have hrunM := run_opsFrom w64 0 initStore hs0 hfresh0
  have hMseq : (runOps initStore (opsFrom 0 w64)).lockPathsSeq = 0 := by
    have h1 := hrunM.1
    rw [show initStore.lockPathsSeq = 0 from rfl] at h1
    rw [h1, Nat.zero_add, Nat.mod_self]
  have hMfresh : (runOps initStore (opsFrom 0 w64)).lockPaths (pathOf w64) = none :=
    hrunM.2.1 w64 (by omega)
  have haddM := LockAdd_none_eq "o" "t" hMfresh
  have hsplit2 : opsFrom 0 (w64 + 1)
      = opsFrom 0 w64 ++ [LockOp.add (pathOf w64) "o" "t"] := by
    have h2 := opsFrom_append w64 0
    rw [show (0 : Nat) + w64 = w64 from by omega] at h2
    exact h2
  have hfinal : runOps initStore (opsFrom 0 (w64 + 1))
      = (LockAdd (runOps initStore (opsFrom 0 w64)) (pathOf w64) "o" "t").2 := by
    rw [hsplit2, runOps_append, runOps_cons, applyLockOp_add, runOps_nil]
  have hid1 : ((runOps initStore (opsFrom 0 w64)).lockPathsSeq + 1) % w64 = 1 := by
    rw [hMseq]
    norm_num [w64]
  have hlook : lookupByKey (runOps initStore (opsFrom 0 (w64 + 1))).locks 1
      = some ⟨1, pathOf w64, "o", "t"⟩ := by
    rw [hfinal]
    simp only [haddM, hid1]
    exact lookupByKey_insertSorted_self _ _ _
  have hsort : locksSorted (runOps initStore (opsFrom 0 (w64 + 1))) :=
    runOps_sorted _ initStore (by simp [locksSorted, initStore])
  have hnd := keysNodup_of_sorted hsort
  refine ⟨hpart1, ?_⟩
  intro hmem
  have hlk2 := lookupByKey_of_mem hnd hmem
  rw [hlook] at hlk2
  have heq := Option.some.inj hlk2
  have hpe : pathOf w64 = pathOf 0 := congrArg MetaLock.Path heq
  have hw0 := pathOf_inj hpe
  norm_num [w64] at hw0
